import Mathlib

/-!
Verification of the `django-passwords` validator library
(`passwords/validators.py`, `passwords/fields.py`).

The Python source is shallowly embedded: each validator becomes an
executable Lean function over `List Char` (Python strings), Python's
`raise ValidationError` becomes an `Option`/`Except` result, and the
true division of similarity scores is carried out in `ℚ`.
-/

/-- Model of Python's `str.lower` on one character, as used by
`BaseSimilarityValidator.fuzzy_substring` (ASCII range; `Char.toLower`
maps `A`-`Z` to `a`-`z` and fixes everything else). -/
def pyLower (c : Char) : Char := c.toLower

/-- The DP cost `cost = (needle[i] != haystack[j])` from
`fuzzy_substring` (Python booleans used as 0/1). -/
def cost (a b : Char) : Nat := if a = b then 0 else 1

/-- Reference implementation for the refinement claim: the ordinary
(full-matrix) Levenshtein distance between two strings, written as the
textbook recursion.  This is the "naive full-matrix reference
implementation" the specification asks reimplementers to test against. -/
def levRef : List Char → List Char → Nat
  | [], ys => ys.length
  | _ :: xs, [] => xs.length + 1
  | x :: xs, y :: ys =>
      min (levRef xs (y :: ys) + 1)
        (min (levRef (x :: xs) ys + 1) (levRef xs ys + cost x y))
termination_by xs ys => xs.length + ys.length

theorem levRef_nil_right (xs : List Char) : levRef xs [] = xs.length := by
  cases xs <;> simp [levRef]

theorem cost_self (a : Char) : cost a a = 0 := by simp [cost]

theorem levRef_self (l : List Char) : levRef l l = 0 := by
  induction l with
  | nil => simp [levRef]
  | cons x xs ih => simp [levRef, ih, cost_self]

set_option maxHeartbeats 800000 in
/-- The "snoc" form of the Levenshtein recursion: peeling the *last*
characters instead of the first ones.  This is the shape in which the
recursion appears in the source's row-by-row dynamic program. -/
theorem levRef_snoc (a b : Char) :
    ∀ xs ys : List Char,
      levRef (xs ++ [a]) (ys ++ [b]) =
        min (levRef xs (ys ++ [b]) + 1)
          (min (levRef (xs ++ [a]) ys + 1) (levRef xs ys + cost a b)) := by
  intro xs
  induction xs with
  | nil =>
      intro ys
      induction ys with
      | nil => simp [levRef]
      | cons e ys ihy =>
          have h1 : levRef ([a]) ((e :: ys) ++ [b]) =
              min (levRef [] (e :: ys ++ [b]) + 1)
                (min (levRef [a] (ys ++ [b]) + 1) (levRef [] (ys ++ [b]) + cost a e)) := by
            simp [levRef]
          simp only [List.nil_append, List.cons_append] at h1 ihy ⊢
          rw [h1, ihy]
          simp only [levRef, List.length_append, List.length_cons, List.length_nil]
          omega
  | cons d xs ihx =>
      intro ys
      induction ys with
      | nil =>
          have h1 : levRef ((d :: xs) ++ [a]) ([] ++ [b]) =
              min (levRef (xs ++ [a]) [b] + 1)
                (min (levRef (d :: xs ++ [a]) [] + 1) (levRef (xs ++ [a]) [] + cost d b)) := by
            simp [levRef]
          have h2 : levRef (d :: xs) [b] =
              min (levRef xs [b] + 1)
                (min (levRef (d :: xs) [] + 1) (levRef xs [] + cost d b)) := by
            simp [levRef]
          have i1 := ihx []
          simp only [List.nil_append, List.cons_append] at h1 i1 ⊢
          rw [h1, i1, h2]
          simp only [levRef_nil_right, List.length_append, List.length_cons,
            List.length_nil]
          omega
      | cons e ys ihy =>
          have h1 : levRef ((d :: xs) ++ [a]) ((e :: ys) ++ [b]) =
              min (levRef (xs ++ [a]) (e :: (ys ++ [b])) + 1)
                (min (levRef (d :: (xs ++ [a])) (ys ++ [b]) + 1)
                  (levRef (xs ++ [a]) (ys ++ [b]) + cost d e)) := by
            simp [levRef]
          have h2 : levRef (d :: xs) (e :: ys ++ [b]) =
              min (levRef xs (e :: ys ++ [b]) + 1)
                (min (levRef (d :: xs) (ys ++ [b]) + 1)
                  (levRef xs (ys ++ [b]) + cost d e)) := by
            simp [levRef]
          have h3 : levRef (d :: xs ++ [a]) (e :: ys) =
              min (levRef (xs ++ [a]) (e :: ys) + 1)
                (min (levRef (d :: xs ++ [a]) ys + 1)
                  (levRef (xs ++ [a]) ys + cost d e)) := by
            simp [levRef]
          have h4 : levRef (d :: xs) (e :: ys) =
              min (levRef xs (e :: ys) + 1)
                (min (levRef (d :: xs) ys + 1) (levRef xs ys + cost d e)) := by
            simp [levRef]
          have i1 := ihx (e :: ys)
          have i3 := ihx ys
          simp only [List.cons_append] at h1 h2 h3 i1 i3 ihy ⊢
          rw [h1, i1, ihy, i3, h2, h3, h4]
          simp only [← Nat.add_min_add_right]
          simp only [Nat.add_assoc, Nat.add_comm, Nat.add_left_comm]
          simp only [min_assoc]
          simp only [min_comm, min_left_comm]

/-- Python's `min` over a nonempty list of numbers (the source applies it
to the final DP row, which is never empty).  `pyMin [] = 0` is an
arbitrary value never reached by the embedded code. -/
def pyMin : List Nat → Nat
  | [] => 0
  | [a] => a
  | a :: b :: t => min a (pyMin (b :: t))

theorem pyMin_le_of_mem : ∀ {l : List Nat} {x : Nat}, x ∈ l → pyMin l ≤ x := by
  intro l
  induction l with
  | nil => intro x hx; cases hx
  | cons a t ih =>
      intro x hx
      cases t with
      | nil =>
          rcases List.mem_singleton.mp hx with rfl
          exact le_rfl
      | cons b t' =>
          rcases List.mem_cons.mp hx with rfl | hx'
          · exact min_le_left _ _
          · exact le_trans (min_le_right _ _) (ih hx')

theorem le_pyMin : ∀ {l : List Nat} {c : Nat}, l ≠ [] → (∀ x ∈ l, c ≤ x) → c ≤ pyMin l := by
  intro l
  induction l with
  | nil => intro c h; exact absurd rfl h
  | cons a t ih =>
      intro c _ hall
      cases t with
      | nil => exact hall a (List.mem_singleton.mpr rfl)
      | cons b t' =>
          refine le_min (hall a (List.mem_cons_self _ _)) ?_
          exact ih (List.cons_ne_nil _ _) fun x hx => hall x (List.mem_cons_of_mem _ hx)

theorem pyMin_mem : ∀ {l : List Nat}, l ≠ [] → pyMin l ∈ l := by
  intro l
  induction l with
  | nil => intro h; exact absurd rfl h
  | cons a t ih =>
      intro _
      cases t with
      | nil => exact List.mem_singleton.mpr rfl
      | cons b t' =>
          show min a (pyMin (b :: t')) ∈ a :: b :: t'
          rcases min_cases a (pyMin (b :: t')) with ⟨h, _⟩ | ⟨h, _⟩
          · rw [h]; exact List.mem_cons_self _ _
          · rw [h]; exact List.mem_cons_of_mem _ (ih (List.cons_ne_nil _ _))

/-- One step of the inner loop of `fuzzy_substring`: walking the previous
row `row1` and the haystack in parallel, carrying the last value appended
to `row2` (`left`, initially `i+1`), and producing the tail of `row2`:
`row2.append(min(row1[j+1]+1, row2[j]+1, row1[j]+cost))`. -/
def nextRow (c : Char) : List Nat → List Char → Nat → List Nat
  | r0 :: r1 :: rest, b :: hsRest, left =>
      min (r1 + 1) (min (left + 1) (r0 + cost c b)) ::
        nextRow c (r1 :: rest) hsRest (min (r1 + 1) (min (left + 1) (r0 + cost c b)))
  | _, _, _ => []

/-- The outer loop of `fuzzy_substring`: `for i in xrange(0,m)` builds
`row2 = [i+1] + inner loop` and replaces `row1` with it. -/
def fuzzyRowsGo (hs : List Char) : List Char → Nat → List Nat → List Nat
  | [], _, row => row
  | c :: cs, i, row => fuzzyRowsGo hs cs (i + 1) ((i + 1) :: nextRow c row hs (i + 1))

/-- The dynamic program of `fuzzy_substring` (lowercasing and the
special cases are handled by `fuzzy_substring` itself): first row of
zeros, one pass per needle character, then `min(row1)`. -/
def fuzzyCore (nd hs : List Char) : Nat :=
  pyMin (fuzzyRowsGo hs nd 0 (List.replicate (hs.length + 1) 0))

/-- Python's substring containment `needle in haystack` (used by the
source only for single-character needles). -/
def pyContains (needle : List Char) : List Char → Bool
  | [] => needle.isEmpty
  | b :: rest => needle.isPrefixOf (b :: rest) || pyContains needle rest

/-- `BaseSimilarityValidator.fuzzy_substring` (validators.py:111-128):
lowercase both strings; if the needle has length 1 and does not occur in
the haystack return `-1`; if the haystack is empty return `len(needle)`;
otherwise run the rolling-row dynamic program whose first row is seeded
with zeros and return the minimum of the final row. -/
def fuzzy_substring (needle haystack : List Char) : Int :=
  let nd := needle.map pyLower
  let hs := haystack.map pyLower
  if nd.length = 1 ∧ pyContains nd hs = false then -1
  else if hs.length = 0 then (nd.length : Int)
  else (fuzzyCore nd hs : Int)

/-- Spec-side definition (from the specification's words, for the
refinement claim): all contiguous substrings of a string, as
`(l.take j).drop k` for `k ≤ j ≤ l.length`. -/
def substrings (l : List Char) : List (List Char) :=
  (List.range (l.length + 1)).flatMap fun j =>
    (List.range (j + 1)).map fun k => (l.take j).drop k

/-- Spec-side definition: the minimum full-matrix Levenshtein distance
between `nd` and any contiguous substring of `hs` ("substring-aware
Levenshtein distance"). -/
def minSubstringLev (nd hs : List Char) : Nat :=
  pyMin ((substrings hs).map fun s => levRef nd s)

/-- Proof-side abbreviation: the intended value of cell `(i, j)` of the
rolling-row program — the least reference distance between the first `i`
needle characters and a substring of the first `j` haystack characters
ending at position `j`. -/
def bestSub (nd hs : List Char) (i j : Nat) : Nat :=
  pyMin ((List.range (j + 1)).map fun k => levRef (nd.take i) ((hs.take j).drop k))

theorem bestSub_zero (nd hs : List Char) (j : Nat) : bestSub nd hs 0 j = 0 := by
  have hmem : (0 : Nat) ∈ (List.range (j + 1)).map fun k => levRef (nd.take 0) ((hs.take j).drop k) := by
    refine List.mem_map.mpr ⟨j, List.mem_range.mpr (Nat.lt_succ_self j), ?_⟩
    have hdrop : (hs.take j).drop j = [] :=
      List.drop_eq_nil_of_le (le_trans (List.length_take_le j hs) le_rfl)
    simp [hdrop, levRef]
  exact Nat.le_zero.mp (pyMin_le_of_mem hmem)

theorem bestSub_left (nd hs : List Char) (i : Nat) : bestSub nd hs i 0 = min i nd.length := by
  have : ((List.range 1).map fun k => levRef (nd.take i) ((hs.take 0).drop k)) = [(nd.take i).length] := by
    simp [levRef_nil_right]
  rw [bestSub]
  rw [this]
  simp [pyMin, List.length_take]

theorem take_succ_getElem {α : Type} (l : List α) (i : Nat) (h : i < l.length) :
    l.take (i + 1) = l.take i ++ [l[i]] := (List.take_concat_get' l i h).symm

theorem drop_take_succ (hs : List Char) (j k : Nat) (hj : j < hs.length) (hk : k ≤ j) :
    (hs.take (j + 1)).drop k = (hs.take j).drop k ++ [hs[j]] := by
  rw [take_succ_getElem hs j hj,
    List.drop_append_of_le_length (by simp [List.length_take]; omega)]

theorem levTake_top (nd hs : List Char) (i j : Nat) (hi : i ≤ nd.length) :
    levRef (nd.take i) ((hs.take j).drop j) = i := by
  have hdrop : (hs.take j).drop j = [] :=
    List.drop_eq_nil_of_le (List.length_take_le j hs)
  rw [hdrop, levRef_nil_right, List.length_take]
  omega

theorem bestSub_le (nd hs : List Char) (i j k : Nat) (hk : k < j + 1) :
    bestSub nd hs i j ≤ levRef (nd.take i) ((hs.take j).drop k) :=
  pyMin_le_of_mem (List.mem_map.mpr ⟨k, List.mem_range.mpr hk, rfl⟩)

theorem le_bestSub (nd hs : List Char) (i j c : Nat)
    (h : ∀ k, k < j + 1 → c ≤ levRef (nd.take i) ((hs.take j).drop k)) :
    c ≤ bestSub nd hs i j := by
  refine le_pyMin ?_ ?_
  · simp
  · intro x hx
    rcases List.mem_map.mp hx with ⟨k, hk, rfl⟩
    exact h k (List.mem_range.mp hk)

theorem bestSub_attained (nd hs : List Char) (i j : Nat) :
    ∃ k, k < j + 1 ∧ bestSub nd hs i j = levRef (nd.take i) ((hs.take j).drop k) := by
  have hne : ((List.range (j + 1)).map fun k => levRef (nd.take i) ((hs.take j).drop k)) ≠ [] := by
    simp
  rcases List.mem_map.mp (pyMin_mem hne) with ⟨k, hk, hval⟩
  exact ⟨k, List.mem_range.mp hk, hval.symm⟩

/-- The cell recurrence of the source's rolling-row program, proved for
the mathematical value the cells are meant to hold. -/
theorem bestSub_succ_succ (nd hs : List Char) (i j : Nat)
    (hi : i < nd.length) (hj : j < hs.length) :
    bestSub nd hs (i + 1) (j + 1) =
      min (bestSub nd hs i (j + 1) + 1)
        (min (bestSub nd hs (i + 1) j + 1)
          (bestSub nd hs i j + cost nd[i] hs[j])) := by
  have hEk : ∀ k, k ≤ j →
      levRef (nd.take (i + 1)) ((hs.take (j + 1)).drop k) =
        min (levRef (nd.take i) ((hs.take (j + 1)).drop k) + 1)
          (min (levRef (nd.take (i + 1)) ((hs.take j).drop k) + 1)
            (levRef (nd.take i) ((hs.take j).drop k) + cost nd[i] hs[j])) := by
    intro k hk
    rw [drop_take_succ hs j k hj hk, take_succ_getElem nd i hi]
    exact levRef_snoc nd[i] hs[j] (nd.take i) ((hs.take j).drop k)
  have hAtop : levRef (nd.take i) ((hs.take (j + 1)).drop (j + 1)) = i :=
    levTake_top nd hs i (j + 1) (le_of_lt hi)
  have hEtop : levRef (nd.take (i + 1)) ((hs.take (j + 1)).drop (j + 1)) = i + 1 :=
    levTake_top nd hs (i + 1) (j + 1) hi
  apply le_antisymm
  · -- the DP value is at most each of the three incoming values
    have h1 : bestSub nd hs (i + 1) (j + 1) ≤ bestSub nd hs i (j + 1) + 1 := by
      rcases bestSub_attained nd hs i (j + 1) with ⟨k, hk, hA⟩
      by_cases hkj : k ≤ j
      · have hmem := bestSub_le nd hs (i + 1) (j + 1) k hk
        rw [hEk k hkj] at hmem
        omega
      · have hkeq : k = j + 1 := by omega
        subst hkeq
        have hmem := bestSub_le nd hs (i + 1) (j + 1) (j + 1) hk
        rw [hEtop] at hmem
        rw [hAtop] at hA
        omega
    have h2 : bestSub nd hs (i + 1) (j + 1) ≤ bestSub nd hs (i + 1) j + 1 := by
      rcases bestSub_attained nd hs (i + 1) j with ⟨k, hk, hB⟩
      have hkj : k ≤ j := by omega
      have hmem := bestSub_le nd hs (i + 1) (j + 1) k (by omega)
      rw [hEk k hkj] at hmem
      omega
    have h3 : bestSub nd hs (i + 1) (j + 1) ≤ bestSub nd hs i j + cost nd[i] hs[j] := by
      rcases bestSub_attained nd hs i j with ⟨k, hk, hC⟩
      have hkj : k ≤ j := by omega
      have hmem := bestSub_le nd hs (i + 1) (j + 1) k (by omega)
      rw [hEk k hkj] at hmem
      omega
    omega
  · -- each final-cell candidate dominates the recurrence's right side
    apply le_bestSub
    intro k hk
    by_cases hkj : k ≤ j
    · rw [hEk k hkj]
      have b1 := bestSub_le nd hs i (j + 1) k (by omega)
      have b2 := bestSub_le nd hs (i + 1) j k (by omega)
      have b3 := bestSub_le nd hs i j k (by omega)
      omega
    · have hkeq : k = j + 1 := by omega
      subst hkeq
      rw [hEtop]
      have b1 := bestSub_le nd hs i (j + 1) (j + 1) hk
      rw [hAtop] at b1
      omega

theorem nextRow_cons (c : Char) (r0 r1 : Nat) (rest : List Nat) (b : Char)
    (hsRest : List Char) (left : Nat) :
    nextRow c (r0 :: r1 :: rest) (b :: hsRest) left =
      min (r1 + 1) (min (left + 1) (r0 + cost c b)) ::
        nextRow c (r1 :: rest) hsRest (min (r1 + 1) (min (left + 1) (r0 + cost c b))) := rfl

theorem nextRow_nil_right (c : Char) (l : List Nat) (left : Nat) :
    nextRow c l [] left = [] := by
  cases l with
  | nil => rfl
  | cons a t => cases t <;> rfl

/-- Row invariant of the inner loop: if the previous row holds the
`bestSub`-values of row `i` from column `j` on, the loop produces the
`bestSub`-values of row `i+1` from column `j+1` on. -/
theorem nextRow_spec (nd hs : List Char) (i : Nat) (hi : i < nd.length) :
    ∀ d j, j + d = hs.length →
      nextRow nd[i] ((List.range' j (d + 1)).map (bestSub nd hs i)) (hs.drop j)
          (bestSub nd hs (i + 1) j)
        = (List.range' (j + 1) d).map (bestSub nd hs (i + 1)) := by
  intro d
  induction d with
  | zero =>
      intro j hj
      have hdrop : hs.drop j = [] := List.drop_eq_nil_of_le (by omega)
      rw [hdrop, nextRow_nil_right]
      rfl
  | succ d ih =>
      intro j hj
      have hjlt : j < hs.length := by omega
      have hdropj : hs.drop j = hs[j] :: hs.drop (j + 1) := List.drop_eq_getElem_cons hjlt
      have hr1 : List.range' j (d + 1 + 1) = j :: (j + 1) :: List.range' (j + 2) d := rfl
      have hr2 : List.range' (j + 1) (d + 1) = (j + 1) :: List.range' (j + 2) d := rfl
      rw [hr1, hdropj, List.map_cons, List.map_cons, nextRow_cons,
        show min (bestSub nd hs i (j + 1) + 1)
            (min (bestSub nd hs (i + 1) j + 1) (bestSub nd hs i j + cost nd[i] hs[j])) =
          bestSub nd hs (i + 1) (j + 1) from (bestSub_succ_succ nd hs i j hi hjlt).symm]
      have ihj := ih (j + 1) (by omega)
      rw [hr2, List.map_cons] at ihj
      rw [ihj, hr2, List.map_cons]

theorem fuzzyRowsGo_nil (hs : List Char) (i : Nat) (row : List Nat) :
    fuzzyRowsGo hs [] i row = row := rfl

theorem fuzzyRowsGo_cons (hs : List Char) (c : Char) (cs : List Char) (i : Nat)
    (row : List Nat) :
    fuzzyRowsGo hs (c :: cs) i row =
      fuzzyRowsGo hs cs (i + 1) ((i + 1) :: nextRow c row hs (i + 1)) := rfl

/-- The outer loop carries the row invariant across the whole needle. -/
theorem fuzzyRowsGo_spec (nd hs : List Char) :
    ∀ (cs pre : List Char), nd = pre ++ cs →
      fuzzyRowsGo hs cs pre.length
          ((List.range' 0 (hs.length + 1)).map (bestSub nd hs pre.length))
        = (List.range' 0 (hs.length + 1)).map (bestSub nd hs nd.length) := by
  intro cs
  induction cs with
  | nil =>
      intro pre hpre
      rw [fuzzyRowsGo_nil, hpre, List.append_nil]
  | cons c cs ih =>
      intro pre hpre
      have hi : pre.length < nd.length := by rw [hpre]; simp
      have hc : nd[pre.length] = c := by
        subst hpre
        rw [List.getElem_append_right (le_refl pre.length)]
        simp
      have hleft : bestSub nd hs (pre.length + 1) 0 = pre.length + 1 := by
        rw [bestSub_left]
        omega
      rw [fuzzyRowsGo_cons]
      have hnew : (pre.length + 1) :: nextRow c
            ((List.range' 0 (hs.length + 1)).map (bestSub nd hs pre.length)) hs
            (pre.length + 1) =
          (List.range' 0 (hs.length + 1)).map (bestSub nd hs (pre.length + 1)) := by
        have hns := nextRow_spec nd hs pre.length hi hs.length 0 (by omega)
        rw [List.drop_zero, hc, hleft] at hns
        rw [show (List.range' 0 (hs.length + 1)).map (bestSub nd hs (pre.length + 1)) =
            bestSub nd hs (pre.length + 1) 0 ::
              (List.range' 1 hs.length).map (bestSub nd hs (pre.length + 1)) from rfl,
          hleft, hns]
      rw [hnew]
      have hlen : (pre ++ [c]).length = pre.length + 1 := by simp
      have happ : nd = (pre ++ [c]) ++ cs := by rw [hpre]; simp
      have := ih (pre ++ [c]) happ
      rw [hlen] at this
      exact this

theorem fuzzyCore_rows (nd hs : List Char) :
    fuzzyCore nd hs =
      pyMin ((List.range' 0 (hs.length + 1)).map (bestSub nd hs nd.length)) := by
  have hinit : (List.range' 0 (hs.length + 1)).map (bestSub nd hs 0) =
      List.replicate (hs.length + 1) 0 := by
    refine List.eq_replicate_iff.mpr ⟨by simp, ?_⟩
    intro b hb
    rcases List.mem_map.mp hb with ⟨j, _, rfl⟩
    exact bestSub_zero nd hs j
  have h := fuzzyRowsGo_spec nd hs nd [] (by simp)
  simp only [List.length_nil] at h
  rw [fuzzyCore, ← hinit, h]

theorem pyMin_map_flatMap (l : List Nat) (f : Nat → List Nat) (hne : ∀ j ∈ l, f j ≠ []) :
    pyMin (l.map fun j => pyMin (f j)) = pyMin (l.flatMap f) := by
  cases l with
  | nil => rfl
  | cons a t =>
      have hfa : pyMin (f a) ∈ f a := pyMin_mem (hne a (List.mem_cons_self _ _))
      have hfm : (a :: t).flatMap f ≠ [] :=
        List.ne_nil_of_mem (List.mem_flatMap.mpr ⟨a, List.mem_cons_self _ _, hfa⟩)
      apply le_antisymm
      · apply le_pyMin hfm
        intro x hx
        rcases List.mem_flatMap.mp hx with ⟨j, hj, hxj⟩
        exact le_trans (pyMin_le_of_mem (List.mem_map.mpr ⟨j, hj, rfl⟩))
          (pyMin_le_of_mem hxj)
      · apply le_pyMin (by simp)
        intro y hy
        rcases List.mem_map.mp hy with ⟨j, hj, rfl⟩
        exact pyMin_le_of_mem (List.mem_flatMap.mpr ⟨j, hj, pyMin_mem (hne j hj)⟩)

/-- The rolling-row program computes exactly the substring-aware
Levenshtein distance (minimum reference distance over all contiguous
substrings of the haystack). -/
theorem fuzzyCore_eq_minSubstringLev (nd hs : List Char) :
    fuzzyCore nd hs = minSubstringLev nd hs := by
  rw [fuzzyCore_rows,
    show List.range' 0 (hs.length + 1) = List.range (hs.length + 1) from
      (List.range_eq_range' _).symm,
    minSubstringLev, substrings, List.map_flatMap,
    ← pyMin_map_flatMap _ _ (fun j _ => by simp)]
  congr 1
  apply List.map_congr_left
  intro j _
  rw [bestSub, List.map_map]
  congr 1
  apply List.map_congr_left
  intro k _
  simp [List.take_length, Function.comp]

/-- Claim C1: for every needle of length ≠ 1 and every haystack,
`fuzzy_substring` equals the minimum ordinary (full-matrix) Levenshtein
distance between the lowercased needle and any contiguous substring of
the lowercased haystack; i.e. the single-rolling-row program with its
first row seeded with zeros computes substring-aware edit distance
identical to the naive full-matrix reference implementation. -/
theorem fuzzy_substring_eq_minSubstringLev (needle haystack : List Char)
    (h : needle.length ≠ 1) :
    fuzzy_substring needle haystack =
      (minSubstringLev (needle.map pyLower) (haystack.map pyLower) : Int) := by
  have hcond : ¬ ((needle.map pyLower).length = 1 ∧
      pyContains (needle.map pyLower) (haystack.map pyLower) = false) := by
    rintro ⟨h1, _⟩
    rw [List.length_map] at h1
    exact h h1
  simp only [fuzzy_substring]
  rw [if_neg hcond]
  by_cases hn : (haystack.map pyLower).length = 0
  · rw [if_pos hn]
    have hmt : haystack.map pyLower = [] := List.length_eq_zero.mp hn
    rw [hmt]
    have h1 : substrings ([] : List Char) = [[]] := rfl
    rw [show minSubstringLev (needle.map pyLower) [] = (needle.map pyLower).length by
      rw [minSubstringLev, h1]
      simp [pyMin, levRef_nil_right]]
  · rw [if_neg hn]
    exact_mod_cast fuzzyCore_eq_minSubstringLev (needle.map pyLower) (haystack.map pyLower)

/-- Witness for C1 at a concrete input: `"ab"` against `"xaby"` (needle
length 2 ≠ 1). -/
theorem fuzzy_substring_eq_minSubstringLev_witness :
    (['a', 'b'] : List Char).length ≠ 1 ∧
      fuzzy_substring ['a', 'b'] ['x', 'a', 'b', 'y'] =
        (minSubstringLev (['a', 'b'].map pyLower) (['x', 'a', 'b', 'y'].map pyLower) : Int) :=
  ⟨by decide, fuzzy_substring_eq_minSubstringLev ['a', 'b'] ['x', 'a', 'b', 'y'] (by decide)⟩

/-- Claim C9: for every string `s`, `fuzzy_substring s s = 0` — the
self-match is an exact match with zero edit distance, including the
empty string and single-character strings. -/
theorem fuzzy_substring_self_eq_zero (s : List Char) : fuzzy_substring s s = 0 := by
  have hcond : ¬ ((s.map pyLower).length = 1 ∧
      pyContains (s.map pyLower) (s.map pyLower) = false) := by
    rintro ⟨h1, h2⟩
    rcases List.length_eq_one.mp h1 with ⟨c, hc⟩
    rw [hc] at h2
    simp [pyContains, List.isPrefixOf] at h2
  simp only [fuzzy_substring]
  rw [if_neg hcond]
  by_cases hn : (s.map pyLower).length = 0
  · rw [if_pos hn, hn]
    rfl
  · rw [if_neg hn, fuzzyCore_eq_minSubstringLev]
    have hmem : (s.map pyLower) ∈ substrings (s.map pyLower) := by
      rw [substrings]
      refine List.mem_flatMap.mpr
        ⟨(s.map pyLower).length, List.mem_range.mpr (Nat.lt_succ_self _), ?_⟩
      refine List.mem_map.mpr ⟨0, List.mem_range.mpr (Nat.succ_pos _), ?_⟩
      simp [List.take_length]
    have hmm : levRef (s.map pyLower) (s.map pyLower) ∈
        (substrings (s.map pyLower)).map fun t => levRef (s.map pyLower) t :=
      List.mem_map.mpr ⟨s.map pyLower, hmem, rfl⟩
    have hle := pyMin_le_of_mem hmm
    rw [levRef_self] at hle
    have hz : minSubstringLev (s.map pyLower) (s.map pyLower) = 0 := Nat.le_zero.mp hle
    rw [hz]
    rfl

/-- Counterexample to claim C5 as stated: for the single-character
needle `"a"` and the empty haystack, `fuzzy_substring` returns the `-1`
sentinel of the `len(needle) == 1` branch, not `len(needle) = 1`. -/
theorem fuzzy_substring_single_empty_ne_length :
    fuzzy_substring ['a'] [] = -1 ∧ fuzzy_substring ['a'] [] ≠ (1 : Int) := by
  constructor
  · rfl
  · decide

/-- Claim C5 as amended: for every needle whose length is not 1,
`fuzzy_substring needle ""` on the empty haystack returns exactly
`len(needle)` (a single-character needle instead hits the `-1` sentinel,
because `len(needle) == 1` is tested before the empty-haystack case). -/
theorem fuzzy_substring_empty_haystack (needle : List Char)
    (h : needle.length ≠ 1) :
    fuzzy_substring needle [] = (needle.length : Int) := by
  have hcond : ¬ ((needle.map pyLower).length = 1 ∧
      pyContains (needle.map pyLower) (([] : List Char).map pyLower) = false) := by
    rintro ⟨h1, _⟩
    rw [List.length_map] at h1
    exact h h1
  simp only [fuzzy_substring]
  rw [if_neg hcond, if_pos (by simp)]
  simp

/-- Witness for the amended C5 at the concrete needle `"ab"`. -/
theorem fuzzy_substring_empty_haystack_witness :
    (['a', 'b'] : List Char).length ≠ 1 ∧
      fuzzy_substring ['a', 'b'] [] = ((['a', 'b'] : List Char).length : Int) :=
  ⟨by decide, fuzzy_substring_empty_haystack ['a', 'b'] (by decide)⟩

/-- `LengthValidator`'s failure reasons ("Password is too short." /
"Password is too long."). -/
inductive LengthError
  | tooShort
  | tooLong
  deriving DecidableEq

/-- Python truthiness of an optional numeric bound, as used by
`LengthValidator.__call__`'s `if self.min_length and ...`: `None` and
`0` are both falsy. -/
def boundTruthy : Option Nat → Bool
  | none => false
  | some n => n != 0

/-- `LengthValidator.__call__` (validators.py:39-47). -/
def lengthCall (minLength maxLength : Option Nat) (value : List Char) : Option LengthError :=
  if boundTruthy minLength && decide (value.length < minLength.getD 0) then
    some .tooShort
  else if boundTruthy maxLength && decide (maxLength.getD 0 < value.length) then
    some .tooLong
  else none

/-- Python's `string.punctuation`. -/
def pyPunctuationChars : List Char :=
  "!\"#$%&\x27()*+,-./:;<=>?@[\\]^_`\x7b|\x7d~".toList

/-- The five character classes of `ComplexityValidator.__call__`. -/
inductive CharClass
  | upper
  | lower
  | digits
  | punctuation
  | nonAscii
  deriving DecidableEq, BEq

/-- The classification cascade of `ComplexityValidator.__call__`
(validators.py:62-74): code point ≥ 128, else `isupper`, else `islower`,
else `isdigit`, else `in string.punctuation`, else the non-ASCII fallback
bucket. -/
def classify (c : Char) : CharClass :=
  if 128 ≤ c.toNat then .nonAscii
  else if 'A' ≤ c ∧ c ≤ 'Z' then .upper
  else if 'a' ≤ c ∧ c ≤ 'z' then .lower
  else if '0' ≤ c ∧ c ≤ '9' then .digits
  else if c ∈ pyPunctuationChars then .punctuation
  else .nonAscii

/-- Cardinality of the per-class *set* of characters the source
accumulates (`uppercase.add(character)` etc.): distinct characters of the
class, not occurrences. -/
def distinctCount (value : List Char) (cls : CharClass) : Nat :=
  ((value.filter fun c => classify c == cls).dedup).length

/-- Python whitespace (for `str.split()`). -/
def pyIsSpace (c : Char) : Bool :=
  c == ' ' || c == '\t' || c == '\n' || c == '\x0b' || c == '\x0c' || c == '\r'

/-- Python `value.split()`: split on whitespace runs, discarding empty
pieces. -/
def pySplit (value : List Char) : List (List Char) :=
  (value.splitOnP pyIsSpace).filter fun w => !w.isEmpty

/-- The complexity minimums dictionary; `dict.get(key, 0)` makes a
missing key behave as 0, so a total record is a faithful model. -/
structure Complexities where
  upper : Nat
  lower : Nat
  digits : Nat
  punctuation : Nat
  nonAscii : Nat
  words : Nat

/-- `ComplexityValidator`'s failure reasons, in source order. -/
inductive ComplexityError
  | upper
  | lower
  | digits
  | punctuation
  | nonAscii
  | words
  deriving DecidableEq

/-- `ComplexityValidator.__call__` (validators.py:56-101): `None`
complexities pass immediately; otherwise the distinct-character counts
are checked in the fixed order UPPER, LOWER, DIGITS, PUNCTUATION,
NON ASCII, WORDS, and the first deficient class raises. -/
def complexityCall (complexities : Option Complexities) (value : List Char) :
    Option ComplexityError :=
  match complexities with
  | none => none
  | some m =>
      if distinctCount value .upper < m.upper then some .upper
      else if distinctCount value .lower < m.lower then some .lower
      else if distinctCount value .digits < m.digits then some .digits
      else if distinctCount value .punctuation < m.punctuation then some .punctuation
      else if distinctCount value .nonAscii < m.nonAscii then some .nonAscii
      else if (pySplit value).dedup.length < m.words then some .words
      else none

/-- The similarity score `(longest - distance) / longest` of
`BaseSimilarityValidator.__call__` (true division, from
`from __future__ import division`), as the exact rational
`mkRat (longest - distance) longest`; the `longest = 0` case never
reaches this expression because `simLoop` raises first, exactly where
Python would raise `ZeroDivisionError`. -/
def similarity (value haystack : List Char) : ℚ :=
  mkRat ((max value.length haystack.length : Int) - fuzzy_substring value haystack)
    (max value.length haystack.length)

/-- The haystack loop of `BaseSimilarityValidator.__call__`
(validators.py:130-138).  `Except.error ()` models the
`ZeroDivisionError` Python raises when `longest == 0`; `.ok true` means
a `ValidationError` is raised; `.ok false` means the loop falls through. -/
def simLoop (threshold : ℚ) (value : List Char) : List (List Char) → Except Unit Bool
  | [] => .ok false
  | h :: rest =>
      if max value.length h.length = 0 then .error ()
      else if threshold ≤ similarity value h then .ok true
      else simLoop threshold value rest

/-- `", ".join(self.haystacks)`, the string interpolated into the base
validator's `Too Similar to [%(haystacks)s]` message. -/
def joinCommaSpace (haystacks : List (List Char)) : List Char :=
  List.intercalate [',', ' '] haystacks

/-- `BaseSimilarityValidator.__call__`: on the first haystack whose
similarity reaches the threshold, raise with the comma-joined list of
*all* haystacks interpolated into the message. -/
def similarityCall (threshold : ℚ) (haystacks : List (List Char)) (value : List Char) :
    Except Unit (Option (List Char)) :=
  match simLoop threshold value haystacks with
  | .error _ => .error ()
  | .ok true => .ok (some (joinCommaSpace haystacks))
  | .ok false => .ok none

/-- Inner loop of `CommonSubStringValidator.longest_common_substring`
(validators.py:172-180): one matrix row, threading the running
`(longest, x_longest)` pair cell by cell (`y` ascending). -/
def lcsInner (c : Char) (x : Nat) : List Nat → List Char → Nat → Nat → List Nat × Nat × Nat
  | p :: ps, b :: bs, longest, xl =>
      let v := if c = b then p + 1 else 0
      let r := lcsInner c x (p :: ps).tail bs (if longest < v then v else longest)
        (if longest < v then x else xl)
      (v :: r.1, r.2)
  | _, _, longest, xl => ([], longest, xl)

/-- Outer loop of `longest_common_substring`: `x` ascending over the
needle, each row starting with the `m[x][0] = 0` border cell. -/
def lcsOuter (hs : List Char) : List Char → Nat → List Nat → Nat → Nat → Nat × Nat
  | [], _, _, longest, xl => (longest, xl)
  | c :: cs, x, prevRow, longest, xl =>
      lcsOuter hs cs (x + 1) (0 :: (lcsInner c x prevRow hs longest xl).1)
        (lcsInner c x prevRow hs longest xl).2.1
        (lcsInner c x prevRow hs longest xl).2.2

/-- `CommonSubStringValidator.longest_common_substring`
(validators.py:167-181): full-matrix LCS dynamic program returning the
slice `needle[x_longest - longest : x_longest]`.  Case-sensitive: no
lowercasing. -/
def longest_common_substring (needle haystack : List Char) : List Char :=
  ((needle.take (lcsOuter haystack needle 1
      (List.replicate (haystack.length + 1) 0) 0 0).2).drop
    ((lcsOuter haystack needle 1
      (List.replicate (haystack.length + 1) 0) 0 0).2 -
     (lcsOuter haystack needle 1
      (List.replicate (haystack.length + 1) 0) 0 0).1))

/-- `CommonSubStringValidator.__call__` (validators.py:183-189): raise on
the first haystack sharing a common substring of length
≥ `PASSWORD_MAX_COMMON_SUBSTRING_LENGTH`, interpolating that substring
(`"".join(a_common_substring)`) into the message. -/
def commonSubstringCall (maxCommon : Nat) (haystacks : List (List Char))
    (value : List Char) : Option (List Char) :=
  match haystacks with
  | [] => none
  | h :: rest =>
      if maxCommon ≤ (longest_common_substring value h).length then
        some (longest_common_substring value h)
      else commonSubstringCall maxCommon rest value

/-- The module-level `COMMON_SEQUENCES` list (validators.py:10-20). -/
def COMMON_SEQUENCES : List (List Char) :=
  ["0123456789".toList,
   "`1234567890-=".toList,
   "~!@#$%^&*()_+".toList,
   "abcdefghijklmnopqrstuvwxyz".toList,
   "quertyuiop[]\\asdfghjkl;\x27zxcvbnm,./".toList,
   "quertyuiop\x7b\x7d|asdfghjkl;\"zxcvbnm<>?".toList,
   "quertyuiopasdfghjklzxcvbnm".toList,
   "1qaz2wsx3edc4rfv5tgb6yhn7ujm8ik,9ol.0p;/-[\x27=]\\".toList,
   "qazwsxedcrfvtgbyhnujmikolp".toList]

/-- The policy configuration consumed by the pipeline: the module-level
settings of validators.py:22-29 plus the reference data the validators
are constructed with (validators.py:192-196). -/
structure Policy where
  minLength : Option Nat
  maxLength : Option Nat
  threshold : ℚ
  maxCommonSubstringLength : Nat
  commonSequences : List (List Char)
  dictionaryWords : List (List Char)
  complexities : Option Complexities

/-- The failure reasons of the five pipeline validators.
`CommonSequenceValidator` and `DictionaryValidator` override `message`
with fixed strings containing no `%(haystacks)s` placeholder
(validators.py:141, 157), so those two failures carry no detail. -/
inductive PipelineFailure
  | length (e : LengthError)
  | commonSequence
  | dictionaryWord
  | complexity (e : ComplexityError)
  | commonSubstring (detail : List Char)
  deriving DecidableEq

/-- Modelled from the spec: the loop that runs the validators lives in
Django's form machinery, not in this repository's sources; the spec
prescribes "Runs checks in fixed order: Length, CommonSequenceSimilarity,
DictionarySimilarity, Complexity, CommonSubstring", short-circuiting on
the first failure.  The order is the in-source list
`PasswordField.default_validators` (fields.py:9-11).  That list's last
entry names `common_sub_string`, which `validators.py` never defines (it
defines `common_substring`, validators.py:196, built over
`PASSWORD_COMMON_SEQUENCES`, not the dictionary); the intended
`common_substring` validator is bound here. -/
def runPipeline (p : Policy) (value : List Char) : Except Unit (Option PipelineFailure) :=
  match lengthCall p.minLength p.maxLength value with
  | some e => .ok (some (.length e))
  | none =>
    match similarityCall p.threshold p.commonSequences value with
    | .error _ => .error ()
    | .ok (some _) => .ok (some .commonSequence)
    | .ok none =>
      match similarityCall p.threshold p.dictionaryWords value with
      | .error _ => .error ()
      | .ok (some _) => .ok (some .dictionaryWord)
      | .ok none =>
        match complexityCall p.complexities value with
        | some e => .ok (some (.complexity e))
        | none =>
          match commonSubstringCall p.maxCommonSubstringLength p.commonSequences value with
          | some s => .ok (some (.commonSubstring s))
          | none => .ok none

deriving instance DecidableEq for Except

/-- Claim C10: a `LengthValidator` bound set to `0` is disabled rather
than enforced — `if self.min_length and ...` tests truthiness, and `0`
is falsy, so a zero bound behaves exactly like an absent (`None`) bound:
no candidate is ever rejected as too short for `min_length = 0`, nor as
too long for `max_length = 0`. -/
theorem lengthCall_zero_bounds_disabled (minLength maxLength : Option Nat)
    (value : List Char) :
    lengthCall (some 0) maxLength value = lengthCall none maxLength value ∧
      lengthCall minLength (some 0) value = lengthCall minLength none value := by
  constructor <;> simp [lengthCall, boundTruthy]

/-- Claim C8: the complexity scorer counts distinct characters per
class, not occurrences: `"aaaa1111"` contains four digit characters but
only one distinct digit, so under minimums `{DIGITS: 4}` it fails with
the insufficient-digits reason. -/
theorem complexity_distinct_digits :
    complexityCall (some ⟨0, 0, 4, 0, 0, 0⟩) "aaaa1111".toList =
        some ComplexityError.digits ∧
      ("aaaa1111".toList.filter fun c => classify c == CharClass.digits).length = 4 ∧
      distinctCount "aaaa1111".toList CharClass.digits = 1 := by
  refine ⟨by decide, by decide, by decide⟩

/-- Claim C3 (the code at the failing input): for the single-character
candidate `"z"` and haystack `"abc"`, `fuzzy_substring` returns the `-1`
sentinel, the similarity formula turns it into `(3 - (-1))/3 = 4/3 > 1`,
and the validator **rejects** the candidate as too similar at the 0.9
threshold — the opposite of the claimed "treated as no match". -/
theorem singleChar_missing_rejected :
    fuzzy_substring ['z'] "abc".toList = -1 ∧
      similarity ['z'] "abc".toList = mkRat 4 3 ∧
      similarityCall (mkRat 9 10) ["abc".toList] ['z'] =
        .ok (some "abc".toList) := by
  refine ⟨by decide, by decide, by decide⟩

/-- Claim C4 (the code at the failing input): with an empty candidate
and an empty reference haystack, `longest == 0` and the source divides
by it unguarded — the model raises the `ZeroDivisionError` outcome
instead of rejecting the candidate as maximally similar. -/
theorem emptyEmpty_division_error :
    similarityCall (mkRat 9 10) [([] : List Char)] [] = .error () := by decide

set_option maxRecDepth 10000 in
/-- Counterexample to claim C2 as stated: under a policy with
`max_common_substring_length = 4` whose dictionary contains
`"elephant"`, validating `"myelephant99"` does **not** yield a
`ContainsCommonSubstring` failure — it yields no failure at all.  The
common-substring validator is constructed over the common sequences, not
the dictionary (validators.py:196), and the dictionary *similarity*
check also passes, since `(12 - 4)/12 = 2/3 < 0.9`. -/
theorem pipeline_elephant_counterexample :
    runPipeline ⟨some 6, none, mkRat 9 10, 4, [], ["elephant".toList], none⟩
      "myelephant99".toList = .ok none := by decide

set_option maxRecDepth 100000 in
/-- Claim C2 as amended: under such a policy the candidate
`"myelephant99"` validates as acceptable (`Valid`); the common-substring
check is applied against the configured common sequences, not the
dictionary words — had it been applied to the dictionary it would have
found the shared substring `"elephant"` (length 8 ≥ 4), and the
dictionary similarity score is only 2/3, below the 0.9 threshold. -/
theorem pipeline_elephant_amended :
    runPipeline ⟨some 6, none, mkRat 9 10, 4, [], ["elephant".toList], none⟩
        "myelephant99".toList = .ok none ∧
      commonSubstringCall 4 ["elephant".toList] "myelephant99".toList =
        some "elephant".toList ∧
      similarity "myelephant99".toList "elephant".toList = mkRat 2 3 ∧
      mkRat 2 3 < mkRat 9 10 := by
  refine ⟨by decide, ?_, by decide, by decide⟩
  simp +decide [commonSubstringCall, longest_common_substring, lcsOuter, lcsInner]

/-- Counterexample to claim C7 as stated: the failure detail of
`BaseSimilarityValidator.__call__` is `", ".join(self.haystacks)` — the
whole configured haystack list — not the matched haystack alone: with
haystacks `["qqqqq", "abcde"]` and candidate `"abcde"` (which matches
only the second), the raised detail is `"qqqqq, abcde"`, not
`"abcde"`. -/
theorem similarityCall_detail_counterexample :
    similarityCall (mkRat 9 10) ["qqqqq".toList, "abcde".toList] "abcde".toList =
        .ok (some "qqqqq, abcde".toList) ∧
      "qqqqq, abcde".toList ≠ "abcde".toList := by
  refine ⟨by decide, by decide⟩

/-- The haystack loop raises on the first qualifying haystack. -/
theorem simLoop_first (threshold : ℚ) (value h : List Char) (post : List (List Char)) :
    ∀ pre : List (List Char),
      (∀ h' ∈ pre, max value.length h'.length ≠ 0 ∧ similarity value h' < threshold) →
      max value.length h.length ≠ 0 → threshold ≤ similarity value h →
      simLoop threshold value (pre ++ h :: post) = .ok true := by
  intro pre
  induction pre with
  | nil =>
      intro _ hmax hq
      simp only [List.nil_append, simLoop]
      rw [if_neg hmax, if_pos hq]
  | cons h' pre ih =>
      intro hpre hmax hq
      obtain ⟨hm, hs⟩ := hpre h' (List.mem_cons_self _ _)
      simp only [List.cons_append, simLoop]
      rw [if_neg hm, if_neg (not_le.mpr hs)]
      exact ih (fun x hx => hpre x (List.mem_cons_of_mem _ hx)) hmax hq

/-- Claim C7 as amended: the similarity validators iterate the haystacks
in configured order and fail on the first haystack whose similarity
meets the threshold, but the failure detail carries the comma-joined
list of **all** configured haystacks (and the `DictionaryValidator` /
`CommonSequenceValidator` subclasses use fixed messages with no detail at
all), not the matched haystack alone. -/
theorem similarityCall_first_match (threshold : ℚ) (value h : List Char)
    (pre post : List (List Char))
    (hpre : ∀ h' ∈ pre, max value.length h'.length ≠ 0 ∧ similarity value h' < threshold)
    (hmax : max value.length h.length ≠ 0)
    (hq : threshold ≤ similarity value h) :
    similarityCall threshold (pre ++ h :: post) value =
      .ok (some (joinCommaSpace (pre ++ h :: post))) := by
  unfold similarityCall
  rw [simLoop_first threshold value h post pre hpre hmax hq]

/-- Witness for the amended C7: candidate `"abcde"` over haystacks
`["qqqqq", "abcde"]` — similarity 0 against the first, 1 against the
second, and the detail is the joined pair. -/
theorem similarityCall_first_match_witness :
    (∀ h' ∈ ["qqqqq".toList],
        max "abcde".toList.length h'.length ≠ 0 ∧
          similarity "abcde".toList h' < mkRat 9 10) ∧
      max "abcde".toList.length "abcde".toList.length ≠ 0 ∧
      mkRat 9 10 ≤ similarity "abcde".toList "abcde".toList ∧
      similarityCall (mkRat 9 10) (["qqqqq".toList] ++ "abcde".toList :: [])
          "abcde".toList =
        .ok (some (joinCommaSpace (["qqqqq".toList] ++ "abcde".toList :: []))) :=
  ⟨by decide, by decide, by decide,
    similarityCall_first_match (mkRat 9 10) "abcde".toList "abcde".toList
      ["qqqqq".toList] [] (by decide) (by decide) (by decide)⟩

/-- Claim C6 (pipeline order and fail-fast, with the runner modelled
from the spec): whenever the length check fails, the pipeline returns
only the length reason — the complexity check (and every later check)
is never consulted, so a candidate failing both Length and Complexity
reports only TooShort/TooLong. -/
theorem runPipeline_failfast_length (p : Policy) (value : List Char) (e : LengthError)
    (h : lengthCall p.minLength p.maxLength value = some e) :
    runPipeline p value = .ok (some (.length e)) := by
  unfold runPipeline
  rw [h]

/-- Witness for C6: `"abc"` under `min_length = 6` and complexity
minimums `{DIGITS: 1}` fails both checks; the pipeline reports only the
too-short reason. -/
theorem runPipeline_failfast_length_witness :
    lengthCall (some 6) none "abc".toList = some LengthError.tooShort ∧
      complexityCall (some ⟨0, 0, 1, 0, 0, 0⟩) "abc".toList =
        some ComplexityError.digits ∧
      runPipeline ⟨some 6, none, mkRat 9 10, 4, COMMON_SEQUENCES, [],
          some ⟨0, 0, 1, 0, 0, 0⟩⟩ "abc".toList =
        .ok (some (PipelineFailure.length LengthError.tooShort)) :=
  ⟨by decide, by decide,
    runPipeline_failfast_length
      ⟨some 6, none, mkRat 9 10, 4, COMMON_SEQUENCES, [], some ⟨0, 0, 1, 0, 0, 0⟩⟩
      "abc".toList LengthError.tooShort (by decide)⟩
